import Mathlib

/-!
Shallow embedding of the Pickomino helper core (src/dice.py, src/game_round.py,
src/game.py) and verification of its specification.

Faces are encoded as in the source: `0` is the worm, `1`-`5` are the number faces.
A `DiceSet` stores the list of faces it was built from; `DiceSet.add` mirrors the
Python `__add__`, which returns `sorted(self.faces + new_faces)`.  Python `float`
probability/score arithmetic is modelled by exact rationals `ℚ`; all quantities
the simulator manipulates (dyadic sums of integer-weighted terms divided by
powers of six) are exact in `ℚ`.
-/

namespace Pickomino

/-- Encoding of the worm face (src/dice.py `WORM = 0`). -/
def WORM : ℕ := 0

/-- Score value of the worm face (src/dice.py `WORM_VAL = 5`). -/
def WORM_VAL : ℕ := 5

/-- The six die faces in canonical order (src/dice.py `FACES`). -/
def FACES : List ℕ := [WORM, 1, 2, 3, 4, 5]

/-- `DiceSet` from src/dice.py: a set of identical dice, stored as the list of
faces passed to the constructor (the constructor does not sort or normalise). -/
structure DiceSet where
  faces : List ℕ
deriving DecidableEq

/-- `DiceSet.__add__`: returns a new set with faces `sorted(self.faces + new_faces)`.
Python `sorted` produces the ascending reordering; insertion sort computes it. -/
def DiceSet.add (d : DiceSet) (newFaces : List ℕ) : DiceSet :=
  ⟨List.insertionSort (· ≤ ·) (d.faces ++ newFaces)⟩

/-- `DiceSet.compact` viewed as the face-to-count mapping of `Counter(self.faces)`:
the multiplicity of each face (faces absent from the set have count `0`, and are
exactly the keys absent from the `Counter`). -/
def DiceSet.compact (d : DiceSet) : ℕ → ℕ := fun face => d.faces.count face

/-- Recursion worker for `countsList`.  The first argument only bounds the
recursion depth: each step recurses on a filtered, hence no longer, list, so any
fuel at least the list length computes the same value (`countsListGo_fuel_eq`). -/
def countsListGo : ℕ → List ℕ → List ℕ
  | _, [] => []
  | 0, _ :: _ => []
  | k + 1, a :: l => (1 + l.count a) :: countsListGo k (l.filter fun x => x ≠ a)

/-- The values of `Counter(l)` in iteration order: Python dict keys iterate in
insertion order, i.e. each distinct element at its first occurrence, and the
value is its total multiplicity in `l`. -/
def countsList (l : List ℕ) : List ℕ :=
  countsListGo l.length l

/-- The iterated product of `DiceSet.combinations`: starting from `ndice`
remaining dice, multiply the accumulator by `C(remaining, count)` for each group
count and subtract the count from the remainder. -/
def combsAux : ℕ → List ℕ → ℕ
  | _, [] => 1
  | nd, c :: cs => nd.choose c * combsAux (nd - c) cs

/-- `DiceSet.combinations`: the number of ways `n` labeled dice could have
produced this set, computed iteratively over `self.compact.values()`. -/
def DiceSet.combinations (d : DiceSet) : ℕ :=
  combsAux d.faces.length (countsList d.faces)

/-- `face_score` from src/dice.py: the worm scores `WORM_VAL`, other faces score
their own number. -/
def face_score (face : ℕ) : ℕ :=
  if face = WORM then WORM_VAL else face

/-- `DiceSet.score`: sum of the scores of all faces in the set. -/
def DiceSet.score (d : DiceSet) : ℕ :=
  (d.faces.map face_score).sum

/-- `DiceSet.is_complete`: whether the set contains at least one worm face. -/
def DiceSet.is_complete (d : DiceSet) : Bool :=
  decide (WORM ∈ d.faces)

/-- Recursion worker for `firstOccur`; as for `countsListGo`, the fuel argument
only bounds the depth. -/
def firstOccurGo : ℕ → List ℕ → List ℕ
  | _, [] => []
  | 0, _ :: _ => []
  | k + 1, a :: l => a :: firstOccurGo k (l.filter fun x => x ≠ a)

/-- The keys of `Counter(l)` in iteration (insertion) order: each distinct
element of `l` at its first occurrence. -/
def firstOccur (l : List ℕ) : List ℕ :=
  firstOccurGo l.length l

/-- The suffixes `faces[i:]` for `i = 0 .. len - 1`, in order: the lists the
recursive calls of `all_rolls` receive as `enumerate(faces)` advances. -/
def suffixes : List ℕ → List (List ℕ)
  | [] => []
  | f :: rest => (f :: rest) :: suffixes rest

/-- `all_rolls` from src/dice.py: all rolls of `n` dice over `faces`, produced by
choosing the lowest face and recursing on the remaining dice restricted to the
faces from that one upward (`all_rolls(n - 1, faces[i:])`), then yielding
`roll + face`. -/
def all_rolls : ℕ → List ℕ → List DiceSet
  | 0, _ => [DiceSet.mk []]
  | n + 1, faces =>
    (suffixes faces).flatMap fun t =>
      match t with
      | [] => []
      | f :: _ => (all_rolls n t).map fun roll => roll.add [f]

/-- The two error kinds of src/game_round.py `Round.pick`: the `ValueError`
raised when the roll is not yet set (a usage-contract violation), and
`InvalidPickError` for an illegal pick. -/
inductive PickError where
  | rollNotSet
  | invalidPick
deriving DecidableEq

/-- `Round` from src/game_round.py: the picked dice so far and the current roll
(`none` models Python `None`, the unset roll).  The `game` field is represented
by the `validScore` parameter threaded through `simulate` below. -/
structure Round where
  picked : DiceSet
  roll : Option DiceSet
deriving DecidableEq

/-- `Round.pick`: pick all dice showing `face` from the current roll, returning a
new `Round` (whose roll is unset, as the `Round` constructor leaves it `None`).
The first component is the outcome of the method (`Except` models the raised
exceptions); the second component is the state of `self` as the call leaves it —
the method body never assigns to `self`, so it is returned as received. -/
def Round.pick (self : Round) (face : ℕ) : Except PickError Round × Round :=
  (match self.roll with
   | none => .error .rollNotSet
   | some roll =>
     if face ∉ roll.faces then .error .invalidPick
     else if face ∈ self.picked.faces then .error .invalidPick
     else .ok ⟨self.picked.add (List.replicate (roll.faces.count face) face), none⟩,
   self)

/-- `Round.score`: the score of the dice picked this round. -/
def Round.score (self : Round) : ℕ := self.picked.score

/-- The `SimResult` dataclass.  The float fields `prob` and `avg_score` are
modelled as exact rationals. -/
structure SimResult where
  prob : ℚ
  avg_score : ℚ
  min_score : ℕ
  max_score : ℕ
deriving DecidableEq

/-- One layer of `Round.simulate` for a round with `picked` dice and roll `roll`
set, with the game's `valid_score` method passed as `validScore`.  The result is
the `results` dict as an association list in insertion order: one entry per face
of `self.roll.compact` that yields one.  `fuel` only bounds the recursion depth:
every recursive call is on a roll with strictly fewer dice, so any
`fuel ≥ roll.faces.length` computes the same result (`simulateGo_eq_simBody`), and
`simulate` below instantiates `fuel` with exactly that bound. -/
def simulateGo (validScore : ℕ → Bool) : ℕ → DiceSet → DiceSet → List (ℕ × SimResult)
  | 0, _, _ => []
  | fuel + 1, picked, roll =>
    (firstOccur roll.faces).filterMap fun face =>
      match (Round.pick ⟨picked, some roll⟩ face).1 with
      | .error _ => none
      | .ok next =>
        let m := roll.faces.length - (next.picked.faces.length - picked.faces.length)
        if m = 0 then
          some (face, ⟨if next.picked.is_complete || validScore next.picked.score
                       then 1 else 0,
                       (next.picked.score : ℚ), next.picked.score, next.picked.score⟩)
        else
          let roll_sims := (all_rolls m FACES).flatMap fun roll2 =>
            ((simulateGo validScore fuel next.picked roll2).map Prod.snd).filterMap
              fun result =>
                if result.prob ≤ 0 then none else some (result, roll2.combinations)
          match roll_sims with
          | [] => none
          | p :: ps =>
            some (face,
              ⟨((p :: ps).map fun pr => pr.1.prob * (pr.2 : ℚ)).sum / 6 ^ m,
               ((p :: ps).map fun pr => pr.1.avg_score * (pr.2 : ℚ)).sum /
                 ((p :: ps).map fun pr => (pr.2 : ℚ)).sum,
               ps.foldl (fun acc pr => min acc pr.1.min_score) p.1.min_score,
               ps.foldl (fun acc pr => max acc pr.1.max_score) p.1.max_score⟩)

/-- `Round.simulate` for a round whose roll is set.  Each weight
`roll2.combinations` is at least `1`, so the weight sum of `roll_sims` vanishes
iff `roll_sims` is empty: the `match roll_sims with | [] => none` branch above is
exactly Python's `except ZeroDivisionError: continue` (the division is evaluated
before `min`/`max`, so the empty `min` is never reached). -/
def simulate (validScore : ℕ → Bool) (picked roll : DiceSet) : List (ℕ × SimResult) :=
  simulateGo validScore roll.faces.length picked roll

/-- `Game.valid_score` from src/game.py: a tile can be taken with `score` if some
free tile has value at most `score`, or the last tile collected by some player
equals `score`.  `none` models the `ValueError` Python's `min` raises when
`free_tiles` is empty (a constructed `Game` always starts with 16 free tiles). -/
def valid_score (free_tiles : List ℕ) (player_tiles : List (List ℕ)) (score : ℕ) :
    Option Bool :=
  match free_tiles.min? with
  | none => none
  | some mn =>
    if mn ≤ score then some true
    else some (player_tiles.any fun tiles => tiles.getLast? == some score)

/-- The dice set a successful `Round.pick` accumulates:
`self.picked + [face] * self.roll.compact[face]`. -/
def pickedAfter (picked roll : DiceSet) (face : ℕ) : DiceSet :=
  picked.add (List.replicate (roll.faces.count face) face)

/-- `next_roll_count` of `Round.simulate`: the number of dice still to roll
after picking all dice showing `face`. -/
def remaining (roll : DiceSet) (face : ℕ) : ℕ :=
  roll.faces.length - roll.faces.count face

/-- The deterministic `SimResult` built by the terminal (`next_roll_count == 0`)
case of `Round.simulate`. -/
def terminalResult (validScore : ℕ → Bool) (p : DiceSet) : SimResult :=
  ⟨if p.is_complete || validScore p.score then 1 else 0, (p.score : ℚ), p.score, p.score⟩

/-- The per-face body of the `Round.simulate` loop: the optional `results` entry
produced for `face` (`simulate_eq_filterMap` below shows `simulate` is the
insertion-ordered association list of these entries). -/
def simBody (validScore : ℕ → Bool) (picked roll : DiceSet) (face : ℕ) :
    Option (ℕ × SimResult) :=
  match (Round.pick ⟨picked, some roll⟩ face).1 with
  | .error _ => none
  | .ok next =>
    let m := roll.faces.length - (next.picked.faces.length - picked.faces.length)
    if m = 0 then
      some (face, ⟨if next.picked.is_complete || validScore next.picked.score
                   then 1 else 0,
                   (next.picked.score : ℚ), next.picked.score, next.picked.score⟩)
    else
      let roll_sims := (all_rolls m FACES).flatMap fun roll2 =>
        ((simulate validScore next.picked roll2).map Prod.snd).filterMap
          fun result =>
            if result.prob ≤ 0 then none else some (result, roll2.combinations)
      match roll_sims with
      | [] => none
      | p :: ps =>
        some (face,
          ⟨((p :: ps).map fun pr => pr.1.prob * (pr.2 : ℚ)).sum / 6 ^ m,
           ((p :: ps).map fun pr => pr.1.avg_score * (pr.2 : ℚ)).sum /
             ((p :: ps).map fun pr => (pr.2 : ℚ)).sum,
           ps.foldl (fun acc pr => min acc pr.1.min_score) p.1.min_score,
           ps.foldl (fun acc pr => max acc pr.1.max_score) p.1.max_score⟩)

/-- The pooled weighted samples `roll_sims` that the recursive case of
`Round.simulate` aggregates for a pick of `face`: for every roll of the
remaining dice and every sub-result of positive probability, the pair of that
sub-result and the weight `combinations()` of its roll. -/
def poolFor (validScore : ℕ → Bool) (picked roll : DiceSet) (face : ℕ) :
    List (SimResult × ℕ) :=
  (all_rolls (remaining roll face) FACES).flatMap fun roll2 =>
    (((simulate validScore (pickedAfter picked roll face) roll2).map Prod.snd).filter
        fun result => 0 < result.prob).map
      fun result => (result, roll2.combinations)

/-! ### Basic facts about the embedded operations -/

theorem DiceSet.add_perm (d : DiceSet) (new : List ℕ) :
    (d.add new).faces.Perm (d.faces ++ new) :=
  List.perm_insertionSort _ _

theorem DiceSet.add_length (d : DiceSet) (new : List ℕ) :
    (d.add new).faces.length = d.faces.length + new.length := by
  simpa using (d.add_perm new).length_eq

theorem DiceSet.add_count (d : DiceSet) (new : List ℕ) (a : ℕ) :
    (d.add new).faces.count a = d.faces.count a + new.count a := by
  simpa using (d.add_perm new).count_eq a

theorem DiceSet.add_sorted (d : DiceSet) (new : List ℕ) :
    (d.add new).faces.Sorted (· ≤ ·) :=
  List.sorted_insertionSort _ _

theorem DiceSet.mem_add (d : DiceSet) (new : List ℕ) (a : ℕ) :
    a ∈ (d.add new).faces ↔ a ∈ d.faces ∨ a ∈ new := by
  rw [(d.add_perm new).mem_iff, List.mem_append]

/-- Induction along the recursion pattern shared by the two `Counter` views. -/
theorem filterRec_induction (P : List ℕ → Prop) (h0 : P [])
    (h1 : ∀ a l, P (l.filter fun x => x ≠ a) → P (a :: l)) : ∀ l, P l := by
  have key : ∀ n : ℕ, ∀ l : List ℕ, l.length ≤ n → P l := by
    intro n
    induction n with
    | zero =>
      intro l hl
      rw [List.length_eq_zero.mp (Nat.le_zero.mp hl)]
      exact h0
    | succ n ih =>
      intro l hl
      cases l with
      | nil => exact h0
      | cons a l =>
        refine h1 a l (ih _ (le_trans (List.length_filter_le _ _) ?_))
        simpa using hl
  exact fun l => key l.length l le_rfl

theorem countsListGo_fuel_eq :
    ∀ k1 : ℕ, ∀ l : List ℕ, ∀ k2 : ℕ, l.length ≤ k1 → l.length ≤ k2 →
      countsListGo k1 l = countsListGo k2 l := by
  intro k1
  induction k1 with
  | zero =>
    intro l k2 h1 _
    rw [List.length_eq_zero.mp (Nat.le_zero.mp h1)]
    cases k2 <;> rfl
  | succ k1 ih =>
    intro l k2 h1 h2
    cases l with
    | nil => cases k2 <;> rfl
    | cons a l =>
      cases k2 with
      | zero => simp at h2
      | succ k2 =>
        show (1 + l.count a) :: countsListGo k1 (l.filter fun x => x ≠ a)
            = (1 + l.count a) :: countsListGo k2 (l.filter fun x => x ≠ a)
        congr 1
        exact ih _ _ (le_trans (List.length_filter_le _ _) (by simpa using h1))
          (le_trans (List.length_filter_le _ _) (by simpa using h2))

theorem firstOccurGo_fuel_eq :
    ∀ k1 : ℕ, ∀ l : List ℕ, ∀ k2 : ℕ, l.length ≤ k1 → l.length ≤ k2 →
      firstOccurGo k1 l = firstOccurGo k2 l := by
  intro k1
  induction k1 with
  | zero =>
    intro l k2 h1 _
    rw [List.length_eq_zero.mp (Nat.le_zero.mp h1)]
    cases k2 <;> rfl
  | succ k1 ih =>
    intro l k2 h1 h2
    cases l with
    | nil => cases k2 <;> rfl
    | cons a l =>
      cases k2 with
      | zero => simp at h2
      | succ k2 =>
        show a :: firstOccurGo k1 (l.filter fun x => x ≠ a)
            = a :: firstOccurGo k2 (l.filter fun x => x ≠ a)
        congr 1
        exact ih _ _ (le_trans (List.length_filter_le _ _) (by simpa using h1))
          (le_trans (List.length_filter_le _ _) (by simpa using h2))

theorem countsList_nil : countsList [] = [] := rfl

theorem countsList_cons (a : ℕ) (l : List ℕ) :
    countsList (a :: l) = (1 + l.count a) :: countsList (l.filter fun x => x ≠ a) := by
  show countsListGo (a :: l).length (a :: l) = _
  rw [List.length_cons]
  show (1 + l.count a) :: countsListGo l.length (l.filter fun x => x ≠ a) = _
  unfold countsList
  congr 1
  exact countsListGo_fuel_eq _ _ _ (List.length_filter_le _ _) le_rfl

theorem firstOccur_nil : firstOccur [] = [] := rfl

theorem firstOccur_cons (a : ℕ) (l : List ℕ) :
    firstOccur (a :: l) = a :: firstOccur (l.filter fun x => x ≠ a) := by
  show firstOccurGo (a :: l).length (a :: l) = _
  rw [List.length_cons]
  show a :: firstOccurGo l.length (l.filter fun x => x ≠ a) = _
  unfold firstOccur
  congr 1
  exact firstOccurGo_fuel_eq _ _ _ (List.length_filter_le _ _) le_rfl

theorem mem_firstOccur : ∀ (l : List ℕ) (a : ℕ), a ∈ firstOccur l ↔ a ∈ l := by
  have key := filterRec_induction (fun l => ∀ a, (a ∈ firstOccur l ↔ a ∈ l)) ?_ ?_
  · exact key
  · intro a
    rw [firstOccur_nil]
  · intro b l ih a
    by_cases hab : a = b
    · subst hab; simp [firstOccur_cons]
    · simp only [firstOccur_cons, List.mem_cons, hab, false_or, ih, List.mem_filter,
        decide_eq_true_eq, ne_eq]
      tauto

theorem nodup_firstOccur : ∀ l : List ℕ, (firstOccur l).Nodup := by
  have key := filterRec_induction (fun l => (firstOccur l).Nodup) ?_ ?_
  · exact key
  · show (firstOccur []).Nodup
    rw [firstOccur_nil]; exact List.nodup_nil
  · intro b l ih
    rw [firstOccur_cons]
    refine List.nodup_cons.mpr ⟨fun hmem => ?_, ih⟩
    rw [mem_firstOccur] at hmem
    have := (List.mem_filter.mp hmem).2
    simp at this

theorem length_filter_ne_add_count (l : List ℕ) (a : ℕ) :
    (l.filter fun x => x ≠ a).length + l.count a = l.length := by
  induction l with
  | nil => simp
  | cons b l ih =>
    by_cases hb : b = a
    · subst hb
      have hf : List.filter (fun x => x ≠ b) (b :: l)
          = List.filter (fun x => x ≠ b) l := by
        simp [List.filter_cons]
      rw [hf, List.count_cons_self, List.length_cons]
      omega
    · have hf : List.filter (fun x => x ≠ a) (b :: l)
          = b :: List.filter (fun x => x ≠ a) l :=
        List.filter_cons_of_pos (by simpa using hb)
      rw [hf, List.count_cons_of_ne (fun h => hb h.symm), List.length_cons,
        List.length_cons]
      omega

theorem countsList_sum : ∀ l : List ℕ, (countsList l).sum = l.length := by
  have key := filterRec_induction (fun l => (countsList l).sum = l.length) ?_ ?_
  · exact key
  · show (countsList []).sum = ([] : List ℕ).length
    rw [countsList_nil]; rfl
  · intro a l ih
    rw [countsList_cons, List.sum_cons, ih, List.length_cons]
    have := length_filter_ne_add_count l a
    omega

theorem combsAux_mul_factorial (cs : List ℕ) :
    ∀ nd, cs.sum ≤ nd →
      combsAux nd cs * ((cs.map Nat.factorial).prod * (nd - cs.sum).factorial)
        = nd.factorial := by
  induction cs with
  | nil => intro nd _; simp [combsAux]
  | cons c cs ih =>
    intro nd h
    rw [List.sum_cons] at h
    have hc : c ≤ nd := by omega
    have hcs : cs.sum ≤ nd - c := by omega
    have key := Nat.choose_mul_factorial_mul_factorial hc
    have ihh := ih (nd - c) hcs
    have hsub : nd - (c + cs.sum) = nd - c - cs.sum := by omega
    simp only [combsAux, List.map_cons, List.prod_cons, List.sum_cons, hsub]
    calc nd.choose c * combsAux (nd - c) cs *
          (c.factorial * (cs.map Nat.factorial).prod * (nd - c - cs.sum).factorial)
        = nd.choose c * c.factorial *
          (combsAux (nd - c) cs *
            ((cs.map Nat.factorial).prod * (nd - c - cs.sum).factorial)) := by ring
      _ = nd.choose c * c.factorial * (nd - c).factorial := by rw [ihh]
      _ = nd.factorial := key

theorem combsAux_pos (cs : List ℕ) (nd : ℕ) (h : cs.sum ≤ nd) :
    0 < combsAux nd cs := by
  have hid := combsAux_mul_factorial cs nd h
  have hfac := Nat.factorial_pos nd
  rcases Nat.eq_zero_or_pos (combsAux nd cs) with h0 | h0
  · rw [h0, zero_mul] at hid; omega
  · exact h0

theorem combinations_mul_factorial (d : DiceSet) :
    d.combinations * ((countsList d.faces).map Nat.factorial).prod
      = d.faces.length.factorial := by
  have h := combsAux_mul_factorial (countsList d.faces) d.faces.length
    (le_of_eq (countsList_sum d.faces))
  rw [countsList_sum d.faces, Nat.sub_self, Nat.factorial_zero, mul_one] at h
  exact h

theorem combinations_pos (d : DiceSet) : 0 < d.combinations :=
  combsAux_pos _ _ (le_of_eq (countsList_sum d.faces))

/-! ### Structure of the `all_rolls` enumeration -/

theorem all_rolls_succ_cons (n : ℕ) (f : ℕ) (rest : List ℕ) :
    all_rolls (n + 1) (f :: rest)
      = ((all_rolls n (f :: rest)).map fun roll => roll.add [f])
        ++ all_rolls (n + 1) rest := by
  conv_lhs => rw [all_rolls]
  conv_rhs => rw [all_rolls]
  rw [suffixes, List.flatMap_cons]

theorem length_of_mem_all_rolls :
    ∀ (n : ℕ) (fs : List ℕ) (R : DiceSet), R ∈ all_rolls n fs → R.faces.length = n := by
  intro n
  induction n with
  | zero =>
    intro fs R hR
    simp only [all_rolls, List.mem_singleton] at hR
    subst hR; rfl
  | succ n ih =>
    intro fs
    induction fs with
    | nil => intro R hR; simp [all_rolls, suffixes] at hR
    | cons f rest ihf =>
      intro R hR
      rw [all_rolls_succ_cons] at hR
      rcases List.mem_append.mp hR with h | h
      · rcases List.mem_map.mp h with ⟨R0, hR0, rfl⟩
        rw [DiceSet.add_length, ih _ _ hR0, List.length_singleton]
      · exact ihf R h

theorem mem_faces_of_mem_all_rolls :
    ∀ (n : ℕ) (fs : List ℕ) (R : DiceSet), R ∈ all_rolls n fs →
      ∀ x ∈ R.faces, x ∈ fs := by
  intro n
  induction n with
  | zero =>
    intro fs R hR
    simp only [all_rolls, List.mem_singleton] at hR
    subst hR; intro x hx; simp at hx
  | succ n ih =>
    intro fs
    induction fs with
    | nil => intro R hR; simp [all_rolls, suffixes] at hR
    | cons f rest ihf =>
      intro R hR x hx
      rw [all_rolls_succ_cons] at hR
      rcases List.mem_append.mp hR with h | h
      · rcases List.mem_map.mp h with ⟨R0, hR0, rfl⟩
        rcases (R0.mem_add [f] x).mp hx with h1 | h1
        · exact ih _ _ hR0 x h1
        · simp only [List.mem_singleton] at h1
          exact h1 ▸ List.mem_cons_self f rest
      · exact List.mem_cons_of_mem f (ihf R h x hx)

theorem sorted_of_mem_all_rolls :
    ∀ (n : ℕ) (fs : List ℕ) (R : DiceSet), R ∈ all_rolls n fs →
      R.faces.Sorted (· ≤ ·) := by
  intro n
  induction n with
  | zero =>
    intro fs R hR
    simp only [all_rolls, List.mem_singleton] at hR
    subst hR; simp
  | succ n ih =>
    intro fs
    induction fs with
    | nil => intro R hR; simp [all_rolls, suffixes] at hR
    | cons f rest ihf =>
      intro R hR
      rw [all_rolls_succ_cons] at hR
      rcases List.mem_append.mp hR with h | h
      · rcases List.mem_map.mp h with ⟨R0, _, rfl⟩
        exact R0.add_sorted [f]
      · exact ihf R h

theorem length_all_rolls :
    ∀ (n : ℕ) (fs : List ℕ), (all_rolls n fs).length = Nat.multichoose fs.length n := by
  intro n
  induction n with
  | zero => intro fs; simp [all_rolls, Nat.multichoose_zero_right]
  | succ n ih =>
    intro fs
    induction fs with
    | nil => simp [all_rolls, suffixes, Nat.multichoose_zero_succ]
    | cons f rest ihf =>
      rw [all_rolls_succ_cons]
      simp only [List.length_append, List.length_map, ih, ihf, List.length_cons]
      rw [Nat.multichoose_succ_succ]
      omega

/-- Coercion to multisets turns `roll + face` into adding one copy of `face`. -/
theorem add_single_multiset (R : DiceSet) (f : ℕ) :
    ((R.add [f]).faces : Multiset ℕ) = f ::ₘ (R.faces : Multiset ℕ) := by
  rw [Multiset.coe_eq_coe.mpr (R.add_perm [f])]
  simp

theorem nodup_all_rolls_multisets :
    ∀ (n : ℕ) (fs : List ℕ), fs.Nodup →
      ((all_rolls n fs).map fun R => (R.faces : Multiset ℕ)).Nodup := by
  intro n
  induction n with
  | zero => intro fs _; simp [all_rolls]
  | succ n ih =>
    intro fs
    induction fs with
    | nil => intro _; simp [all_rolls, suffixes]
    | cons f rest ihf =>
      intro h
      rw [all_rolls_succ_cons]
      simp only [List.map_append, List.map_map]
      have hrest : rest.Nodup := (List.nodup_cons.mp h).2
      have hfnotin : f ∉ rest := (List.nodup_cons.mp h).1
      apply List.Nodup.append
      · have hcomp : ((fun R : DiceSet => (R.faces : Multiset ℕ)) ∘
            fun roll => roll.add [f])
            = (fun M : Multiset ℕ => f ::ₘ M) ∘ fun R : DiceSet => (R.faces : Multiset ℕ) := by
          funext R
          simp [Function.comp, add_single_multiset]
        rw [hcomp, ← List.map_map]
        exact (ih (f :: rest) h).map fun a b hab => by
          simpa using hab
      · exact ihf hrest
      · intro M hM1 hM2
        simp only [List.mem_map, Function.comp] at hM1 hM2
        rcases hM1 with ⟨R1, _, hR1⟩
        rcases hM2 with ⟨R2, hR2mem, hR2⟩
        have hfM : f ∈ M := by
          rw [← hR1, add_single_multiset]
          exact Multiset.mem_cons_self f _
        have : f ∈ R2.faces := by
          rw [← hR2] at hfM
          simpa using hfM
        exact hfnotin (mem_faces_of_mem_all_rolls _ _ _ hR2mem f this)

theorem mem_all_rolls_multisets :
    ∀ (n : ℕ) (fs : List ℕ) (M : Multiset ℕ), Multiset.card M = n →
      (∀ x ∈ M, x ∈ fs) →
      M ∈ (all_rolls n fs).map fun R => (R.faces : Multiset ℕ) := by
  intro n
  induction n with
  | zero =>
    intro fs M hc _
    simp only [all_rolls, List.map_cons, List.map_nil, List.mem_singleton]
    rw [Multiset.card_eq_zero.mp hc]
    rfl
  | succ n ih =>
    intro fs
    induction fs with
    | nil =>
      intro M hc hx
      exfalso
      obtain ⟨a, ha⟩ := Multiset.card_pos_iff_exists_mem.mp
        (by rw [hc]; exact Nat.succ_pos n)
      exact List.not_mem_nil a (hx a ha)
    | cons f rest ihf =>
      intro M hc hx
      rw [all_rolls_succ_cons]
      simp only [List.map_append, List.mem_append]
      by_cases hf : f ∈ M
      · left
        have hc2 : Multiset.card (M.erase f) = n := by
          rw [Multiset.card_erase_of_mem hf, hc]
          rfl
        have hx2 : ∀ x ∈ M.erase f, x ∈ f :: rest :=
          fun x hxm => hx x (Multiset.mem_of_mem_erase hxm)
        rcases List.mem_map.mp (ih (f :: rest) (M.erase f) hc2 hx2) with ⟨R0, hR0, hR0eq⟩
        simp only [List.map_map]
        refine List.mem_map.mpr ⟨R0, hR0, ?_⟩
        simp only [Function.comp]
        rw [add_single_multiset, hR0eq, Multiset.cons_erase hf]
      · right
        refine ihf M hc fun x hxm => ?_
        rcases List.mem_cons.mp (hx x hxm) with h | h
        · exact absurd (h ▸ hxm) hf
        · exact h

/-! ### The combination weights of `all_rolls` partition the labeled sample space -/

theorem countsList_replicate_append (f : ℕ) (l : List ℕ) (t : ℕ) (ht : 0 < t) :
    countsList (List.replicate t f ++ l)
      = (t + l.count f) :: countsList (l.filter fun x => x ≠ f) := by
  obtain ⟨t2, rfl⟩ : ∃ t2, t = t2 + 1 := ⟨t - 1, by omega⟩
  rw [List.replicate_succ, List.cons_append, countsList_cons]
  congr 1
  · rw [List.count_append, List.count_replicate]
    simp only [beq_self_eq_true, if_true]
    omega
  · congr 1
    rw [List.filter_append, List.filter_replicate]
    simp

theorem combsAux_replicate_prepend (f : ℕ) (l : List ℕ) (t : ℕ) (hf : f ∉ l) :
    combsAux (t + l.length) (countsList (List.replicate t f ++ l))
      = (t + l.length).choose t * combsAux l.length (countsList l) := by
  cases t with
  | zero => simp [List.replicate]
  | succ t2 =>
    rw [countsList_replicate_append f l (t2 + 1) (Nat.succ_pos t2)]
    have hcount : l.count f = 0 := List.count_eq_zero.mpr hf
    have hfilter : l.filter (fun x => x ≠ f) = l := by
      rw [List.filter_eq_self]
      intro x hx
      simp only [ne_eq, decide_eq_true_eq]
      rintro rfl
      exact hf hx
    rw [hcount, hfilter, Nat.add_zero, combsAux, Nat.add_sub_cancel_left]

/-- When every face of a sorted roll is at least `f`, Python's
`sorted(faces + [f])` is exactly `f :: faces`. -/
theorem add_single_eq_cons (R : DiceSet) (f : ℕ) (hs : R.faces.Sorted (· ≤ ·))
    (hall : ∀ x ∈ R.faces, f ≤ x) : (R.add [f]).faces = f :: R.faces :=
  List.eq_of_perm_of_sorted
    ((R.add_perm [f]).trans (List.perm_append_singleton f R.faces))
    (R.add_sorted [f]) (List.sorted_cons.mpr ⟨hall, hs⟩)

/-- Key recurrence: prepending `t` copies of the head face `f` to every roll of
`n` dice over `f :: rest` and summing the resulting combination counts matches a
binomial-weighted sum over rolls avoiding `f`. -/
theorem sum_combs_prepend (f : ℕ) (rest : List ℕ)
    (hsorted : (f :: rest).Sorted (· ≤ ·)) (hnotin : f ∉ rest) :
    ∀ n t : ℕ,
      ((all_rolls n (f :: rest)).map fun R =>
          combsAux (n + t) (countsList (List.replicate t f ++ R.faces))).sum
        = ∑ j ∈ Finset.range (n + 1),
            (n + t).choose (j + t)
              * ((all_rolls (n - j) rest).map DiceSet.combinations).sum := by
  intro n
  induction n with
  | zero =>
    intro t
    have h0 := combsAux_replicate_prepend f [] t (List.not_mem_nil f)
    simp only [List.length_nil, Nat.add_zero, List.append_nil] at h0
    simp [all_rolls, h0, DiceSet.combinations, countsList_nil, combsAux]
  | succ n ih =>
    intro t
    rw [all_rolls_succ_cons]
    simp only [List.map_append, List.sum_append, List.map_map]
    have hfirst :
        ((all_rolls n (f :: rest)).map
            ((fun R => combsAux (n + 1 + t) (countsList (List.replicate t f ++ R.faces)))
              ∘ fun roll => roll.add [f])).sum
          = ((all_rolls n (f :: rest)).map fun R =>
              combsAux (n + (t + 1)) (countsList (List.replicate (t + 1) f ++ R.faces))).sum := by
      apply congrArg
      apply List.map_congr_left
      intro R hR
      have hsortR := sorted_of_mem_all_rolls _ _ _ hR
      have hallR : ∀ x ∈ R.faces, f ≤ x := by
        intro x hx
        rcases List.mem_cons.mp (mem_faces_of_mem_all_rolls _ _ _ hR x hx) with h | h
        · exact le_of_eq h.symm
        · exact (List.sorted_cons.mp hsorted).1 x h
      simp only [Function.comp]
      rw [add_single_eq_cons R f hsortR hallR]
      have hlist : List.replicate t f ++ f :: R.faces
          = List.replicate (t + 1) f ++ R.faces := by
        rw [List.replicate_succ']
        simp
      rw [hlist]
      congr 1
      omega
    rw [hfirst, ih (t + 1)]
    have hsecond :
        ((all_rolls (n + 1) rest).map fun R =>
            combsAux (n + 1 + t) (countsList (List.replicate t f ++ R.faces))).sum
          = (n + 1 + t).choose t
              * ((all_rolls (n + 1) rest).map DiceSet.combinations).sum := by
      rw [← List.sum_map_mul_left]
      apply congrArg
      apply List.map_congr_left
      intro R hR
      have hfR : f ∉ R.faces := fun hmem =>
        hnotin (mem_faces_of_mem_all_rolls _ _ _ hR f hmem)
      have hlen : R.faces.length = n + 1 := length_of_mem_all_rolls _ _ _ hR
      have := combsAux_replicate_prepend f R.faces t hfR
      rw [hlen] at this
      rw [show n + 1 + t = t + (n + 1) from by omega, this]
      rw [DiceSet.combinations, hlen]
    rw [hsecond]
    rw [Finset.sum_range_succ' (fun j => (n + 1 + t).choose (j + t)
      * ((all_rolls (n + 1 - j) rest).map DiceSet.combinations).sum) (n + 1)]
    congr 1
    · apply Finset.sum_congr rfl
      intro j _
      have h1 : j + (t + 1) = j + 1 + t := by omega
      have h2 : n - j = n + 1 - (j + 1) := by omega
      have h3 : n + (t + 1) = n + 1 + t := by omega
      rw [h1, h2, h3]
    · simp

theorem sum_combinations_all_rolls :
    ∀ fs : List ℕ, fs.Sorted (· < ·) →
      ∀ n, ((all_rolls n fs).map DiceSet.combinations).sum = fs.length ^ n := by
  intro fs
  induction fs with
  | nil =>
    intro _ n
    cases n with
    | zero => simp [all_rolls, DiceSet.combinations, countsList_nil, combsAux]
    | succ n => simp [all_rolls, suffixes]
  | cons f rest ih =>
    intro hsorted n
    have hs_le : (f :: rest).Sorted (· ≤ ·) :=
      List.Sorted.le_of_lt hsorted
    have hnotin : f ∉ rest := fun hmem =>
      lt_irrefl f ((List.sorted_cons.mp hsorted).1 f hmem)
    have key := sum_combs_prepend f rest hs_le hnotin n 0
    have hlhs :
        ((all_rolls n (f :: rest)).map fun R =>
            combsAux (n + 0) (countsList (List.replicate 0 f ++ R.faces))).sum
          = ((all_rolls n (f :: rest)).map DiceSet.combinations).sum := by
      apply congrArg
      apply List.map_congr_left
      intro R hR
      have hlen : R.faces.length = n := length_of_mem_all_rolls _ _ _ hR
      simp only [List.replicate, List.nil_append, Nat.add_zero]
      rw [DiceSet.combinations, hlen]
    rw [hlhs] at key
    rw [key]
    have hrest := ih (List.sorted_cons.mp hsorted).2
    calc ∑ j ∈ Finset.range (n + 1),
            (n + 0).choose (j + 0) * ((all_rolls (n - j) rest).map DiceSet.combinations).sum
        = ∑ j ∈ Finset.range (n + 1), 1 ^ j * rest.length ^ (n - j) * n.choose j := by
          apply Finset.sum_congr rfl
          intro j _
          rw [hrest (n - j)]
          simp [Nat.mul_comm]
      _ = (1 + rest.length) ^ n := (add_pow 1 rest.length n).symm
      _ = (f :: rest).length ^ n := by simp [Nat.add_comm]

/-! ### The simulator as an association list of per-face entries -/

theorem pick_ok_inv {picked roll : DiceSet} {face : ℕ} {next : Round}
    (h : (Round.pick ⟨picked, some roll⟩ face).1 = .ok next) :
    face ∈ roll.faces ∧ face ∉ picked.faces
      ∧ next = ⟨pickedAfter picked roll face, none⟩ := by
  unfold Round.pick at h
  by_cases h1 : face ∈ roll.faces
  · by_cases h2 : face ∈ picked.faces
    · simp [h1, h2] at h
    · simp only [h1, h2, not_true_eq_false, not_false_eq_true, if_false, if_true] at h
      exact ⟨h1, h2, by simp only [pickedAfter]; exact (Except.ok.injEq _ _).mp h.symm⟩
  · simp [h1] at h

theorem pick_ok (picked roll : DiceSet) (face : ℕ) (h1 : face ∈ roll.faces)
    (h2 : face ∉ picked.faces) :
    (Round.pick ⟨picked, some roll⟩ face).1
      = .ok ⟨pickedAfter picked roll face, none⟩ := by
  unfold Round.pick pickedAfter
  simp [h1, h2]

theorem pickedAfter_length (picked roll : DiceSet) (face : ℕ) :
    (pickedAfter picked roll face).faces.length
      = picked.faces.length + roll.faces.count face := by
  rw [pickedAfter, DiceSet.add_length, List.length_replicate]

theorem remaining_lt {roll : DiceSet} {face : ℕ} (h : face ∈ roll.faces) :
    remaining roll face < roll.faces.length := by
  have h1 : 0 < roll.faces.count face := List.count_pos_iff.mpr h
  have h2 : roll.faces.count face ≤ roll.faces.length := List.count_le_length _ _
  unfold remaining
  omega

theorem simulateGo_eq_simBody (v : ℕ → Bool) :
    ∀ k : ℕ, ∀ picked roll : DiceSet, roll.faces.length ≤ k →
      simulateGo v k picked roll
        = (firstOccur roll.faces).filterMap (simBody v picked roll) := by
  intro k
  induction k using Nat.strong_induction_on with
  | _ k ih =>
    intro picked roll hk
    cases k with
    | zero =>
      have hnil : roll.faces = [] := List.length_eq_zero.mp (Nat.le_zero.mp hk)
      show ([] : List (ℕ × SimResult)) = _
      rw [hnil, firstOccur_nil, List.filterMap_nil]
    | succ k0 =>
      simp only [simulateGo]
      apply List.filterMap_congr
      intro face hface
      simp only [simBody]
      cases hpick : (Round.pick ⟨picked, some roll⟩ face).1 with
      | error e => rfl
      | ok next =>
        obtain ⟨hf1, _, hnext⟩ := pick_ok_inv hpick
        have hmlt : roll.faces.length - (next.picked.faces.length - picked.faces.length)
            < roll.faces.length := by
          have e1 : next.picked.faces.length
              = picked.faces.length + roll.faces.count face := by
            rw [hnext]; exact pickedAfter_length picked roll face
          have e2 : 0 < roll.faces.count face := List.count_pos_iff.mpr hf1
          have e3 : roll.faces.count face ≤ roll.faces.length :=
            List.count_le_length _ _
          omega
        by_cases hm : roll.faces.length - (next.picked.faces.length - picked.faces.length) = 0
        · simp only [hm, if_true]
        · simp only [if_neg hm]
          have hrs :
              (all_rolls (roll.faces.length - (next.picked.faces.length - picked.faces.length))
                  FACES).flatMap
                  (fun roll2 => ((simulateGo v k0 next.picked roll2).map Prod.snd).filterMap
                    fun result =>
                      if result.prob ≤ 0 then none else some (result, roll2.combinations))
                = (all_rolls (roll.faces.length - (next.picked.faces.length - picked.faces.length))
                    FACES).flatMap
                    (fun roll2 => ((simulate v next.picked roll2).map Prod.snd).filterMap
                      fun result =>
                        if result.prob ≤ 0 then none else some (result, roll2.combinations)) := by
            apply List.flatMap_congr
            intro roll2 hroll2
            have hlen := length_of_mem_all_rolls _ _ _ hroll2
            have e1 : simulateGo v k0 next.picked roll2
                = (firstOccur roll2.faces).filterMap (simBody v next.picked roll2) :=
              ih k0 (by omega) next.picked roll2 (by omega)
            have e2 : simulate v next.picked roll2
                = (firstOccur roll2.faces).filterMap (simBody v next.picked roll2) := by
              rw [simulate]
              exact ih roll2.faces.length (by omega) next.picked roll2 le_rfl
            rw [e1, e2]
          rw [hrs]

theorem simulate_eq_filterMap (v : ℕ → Bool) (picked roll : DiceSet) :
    simulate v picked roll
      = (firstOccur roll.faces).filterMap (simBody v picked roll) := by
  rw [simulate]
  exact simulateGo_eq_simBody v roll.faces.length picked roll le_rfl

theorem simBody_key {v : ℕ → Bool} {picked roll : DiceSet} {face : ℕ}
    {x : ℕ × SimResult} (h : simBody v picked roll face = some x) : x.1 = face := by
  cases hpick : (Round.pick ⟨picked, some roll⟩ face).1 with
  | error e =>
    simp only [simBody, hpick] at h
    exact Option.noConfusion h
  | ok next =>
    simp only [simBody, hpick] at h
    by_cases hm : roll.faces.length - (next.picked.faces.length - picked.faces.length) = 0
    · rw [if_pos hm, Option.some.injEq] at h
      rw [← h]
    · rw [if_neg hm] at h
      rcases hrs : (all_rolls
            (roll.faces.length - (next.picked.faces.length - picked.faces.length)) FACES).flatMap
            (fun roll2 =>
              ((simulate v next.picked roll2).map Prod.snd).filterMap
                fun result =>
                  if result.prob ≤ 0 then none else some (result, roll2.combinations))
        with _ | ⟨p, ps⟩
      · rw [hrs] at h
        simp at h
      · rw [hrs] at h
        rw [Option.some.injEq] at h
        rw [← h]

theorem mem_simulate_iff (v : ℕ → Bool) (picked roll : DiceSet) (face : ℕ)
    (r : SimResult) :
    (face, r) ∈ simulate v picked roll
      ↔ face ∈ roll.faces ∧ simBody v picked roll face = some (face, r) := by
  rw [simulate_eq_filterMap]
  constructor
  · intro h
    rcases List.mem_filterMap.mp h with ⟨a, ha, hfa⟩
    have hkey : ((face, r) : ℕ × SimResult).1 = a := simBody_key hfa
    simp only at hkey
    subst hkey
    exact ⟨(mem_firstOccur _ _).mp ha, hfa⟩
  · rintro ⟨h1, h2⟩
    exact List.mem_filterMap.mpr ⟨face, (mem_firstOccur _ _).mpr h1, h2⟩

theorem filterMap_pos_eq (l : List SimResult) (c : ℕ) :
    (l.filterMap fun result =>
        if result.prob ≤ 0 then none else some (result, c))
      = (l.filter fun result => 0 < result.prob).map fun result => (result, c) := by
  induction l with
  | nil => rfl
  | cons a l ih =>
    by_cases h : a.prob ≤ 0
    · rw [List.filterMap_cons, if_pos h, List.filter_cons,
        if_neg (by simpa using not_lt.mpr h)]
      exact ih
    · rw [List.filterMap_cons, if_neg h, List.filter_cons,
        if_pos (by simpa using not_le.mp h), List.map_cons, ih]

theorem simBody_terminal (v : ℕ → Bool) (picked roll : DiceSet) (face : ℕ)
    (h1 : face ∈ roll.faces) (h2 : face ∉ picked.faces)
    (h3 : remaining roll face = 0) :
    simBody v picked roll face
      = some (face, terminalResult v (pickedAfter picked roll face)) := by
  have hm : roll.faces.length
      - ((pickedAfter picked roll face).faces.length - picked.faces.length)
      = remaining roll face := by
    rw [pickedAfter_length]; unfold remaining; omega
  simp only [simBody, pick_ok picked roll face h1 h2, hm, h3, eq_self_iff_true,
    if_true]
  rfl

theorem simBody_recursive (v : ℕ → Bool) (picked roll : DiceSet) (face : ℕ)
    (h1 : face ∈ roll.faces) (h2 : face ∉ picked.faces)
    (h3 : remaining roll face ≠ 0) :
    simBody v picked roll face
      = match poolFor v picked roll face with
        | [] => none
        | p :: ps =>
          some (face,
            ⟨((p :: ps).map fun pr => pr.1.prob * (pr.2 : ℚ)).sum
                / 6 ^ remaining roll face,
             ((p :: ps).map fun pr => pr.1.avg_score * (pr.2 : ℚ)).sum /
               ((p :: ps).map fun pr => (pr.2 : ℚ)).sum,
             ps.foldl (fun acc pr => min acc pr.1.min_score) p.1.min_score,
             ps.foldl (fun acc pr => max acc pr.1.max_score) p.1.max_score⟩) := by
  have hm : roll.faces.length
      - ((pickedAfter picked roll face).faces.length - picked.faces.length)
      = remaining roll face := by
    rw [pickedAfter_length]; unfold remaining; omega
  simp only [simBody, pick_ok picked roll face h1 h2, hm]
  rw [if_neg h3]
  have hpool : (all_rolls (remaining roll face) FACES).flatMap
        (fun roll2 =>
          ((simulate v (pickedAfter picked roll face) roll2).map Prod.snd).filterMap
            fun result =>
              if result.prob ≤ 0 then none else some (result, roll2.combinations))
      = poolFor v picked roll face := by
    unfold poolFor
    apply List.flatMap_congr
    intro roll2 _
    exact filterMap_pos_eq _ _
  rw [hpool]

theorem foldl_min_mem : ∀ (l : List ℕ) (a : ℕ), l.foldl min a ∈ a :: l := by
  intro l
  induction l with
  | nil => intro a; simp
  | cons b l ih =>
    intro a
    rw [List.foldl_cons]
    rcases List.mem_cons.mp (ih (min a b)) with h | h
    · rcases min_choice a b with hc | hc
      · rw [h, hc]; exact List.mem_cons_self _ _
      · rw [h, hc]; exact List.mem_cons_of_mem _ (List.mem_cons_self _ _)
    · exact List.mem_cons_of_mem _ (List.mem_cons_of_mem _ h)

theorem foldl_min_le :
    ∀ (l : List ℕ) (a x : ℕ), x ∈ a :: l → l.foldl min a ≤ x := by
  intro l
  induction l with
  | nil =>
    intro a x hx
    rw [List.mem_singleton.mp hx]
    exact le_rfl
  | cons b l ih =>
    intro a x hx
    rw [List.foldl_cons]
    rcases List.mem_cons.mp hx with h | h
    · rw [h]
      exact le_trans (ih (min a b) (min a b) (List.mem_cons_self _ _)) (min_le_left a b)
    · rcases List.mem_cons.mp h with h2 | h2
      · rw [h2]
        exact le_trans (ih (min a b) (min a b) (List.mem_cons_self _ _))
          (min_le_right a b)
      · exact ih (min a b) x (List.mem_cons_of_mem _ h2)

theorem foldl_max_mem : ∀ (l : List ℕ) (a : ℕ), l.foldl max a ∈ a :: l := by
  intro l
  induction l with
  | nil => intro a; simp
  | cons b l ih =>
    intro a
    rw [List.foldl_cons]
    rcases List.mem_cons.mp (ih (max a b)) with h | h
    · rcases max_choice a b with hc | hc
      · rw [h, hc]; exact List.mem_cons_self _ _
      · rw [h, hc]; exact List.mem_cons_of_mem _ (List.mem_cons_self _ _)
    · exact List.mem_cons_of_mem _ (List.mem_cons_of_mem _ h)

theorem foldl_max_ge :
    ∀ (l : List ℕ) (a x : ℕ), x ∈ a :: l → x ≤ l.foldl max a := by
  intro l
  induction l with
  | nil =>
    intro a x hx
    rw [List.mem_singleton.mp hx]
    exact le_rfl
  | cons b l ih =>
    intro a x hx
    rw [List.foldl_cons]
    rcases List.mem_cons.mp hx with h | h
    · rw [h]
      exact le_trans (le_max_left a b) (ih (max a b) (max a b) (List.mem_cons_self _ _))
    · rcases List.mem_cons.mp h with h2 | h2
      · rw [h2]
        exact le_trans (le_max_right a b)
          (ih (max a b) (max a b) (List.mem_cons_self _ _))
      · exact ih (max a b) x (List.mem_cons_of_mem _ h2)

/-! ### The claims -/

/-- C1: for a round whose roll is set, picking a face of the roll that is still
available (not yet retired) and that consumes the whole roll
(`next_roll_count == 0`) always produces a `results` entry — even when its
probability is `0` — equal to the deterministic terminal result: probability `1`
exactly when the validity predicate the code applies to the resulting pick
passes, else `0`, and average, minimum and maximum score all equal to the score
of the resulting picked set. -/
theorem simulate_terminal_entry (v : ℕ → Bool) (picked roll : DiceSet) (face : ℕ)
    (h1 : face ∈ roll.faces) (h2 : face ∉ picked.faces)
    (h3 : remaining roll face = 0) :
    (face, terminalResult v (pickedAfter picked roll face)) ∈ simulate v picked roll
    ∧ ∀ r : SimResult, (face, r) ∈ simulate v picked roll →
        r = terminalResult v (pickedAfter picked roll face) := by
  have hbody := simBody_terminal v picked roll face h1 h2 h3
  constructor
  · exact (mem_simulate_iff v picked roll face _).mpr ⟨h1, hbody⟩
  · intro r hr
    have h := ((mem_simulate_iff v picked roll face r).mp hr).2
    rw [hbody] at h
    simp only [Option.some.injEq, Prod.mk.injEq, true_and] at h
    exact h.symm

/-- Witness for C1: the spec scenario — one die showing `3`, nothing picked, a
validity rule that never accepts a score: the entry is still present, with
probability `0` and all three scores `3`. -/
theorem simulate_terminal_entry_witness :
    ((3 : ℕ), (⟨0, 3, 3, 3⟩ : SimResult))
      ∈ simulate (fun _ => false) (DiceSet.mk []) (DiceSet.mk [3]) := by
  have h := (simulate_terminal_entry (fun _ => false) (DiceSet.mk [])
    (DiceSet.mk [3]) 3 (by decide) (by decide) (by decide)).1
  have he : terminalResult (fun _ => false)
      (pickedAfter (DiceSet.mk []) (DiceSet.mk [3]) 3) = (⟨0, 3, 3, 3⟩ : SimResult) := by
    decide
  rw [he] at h
  exact h

/-- C2: a legal pick that leaves `m > 0` dice to roll and whose pool of
positive-probability weighted sub-results is non-empty is reported with:
probability the weighted sub-probability sum divided by `6 ^ m`; average the
weighted sub-average sum divided by the total pool weight; minimum score the
least of the pool's minimum scores and maximum score the greatest of the pool's
maximum scores. -/
theorem simulate_recursive_entry (v : ℕ → Bool) (picked roll : DiceSet) (face : ℕ)
    (h1 : face ∈ roll.faces) (h2 : face ∉ picked.faces)
    (h3 : remaining roll face ≠ 0) (h4 : poolFor v picked roll face ≠ []) :
    ∃ r : SimResult, (face, r) ∈ simulate v picked roll
      ∧ r.prob = ((poolFor v picked roll face).map fun pr => pr.1.prob * (pr.2 : ℚ)).sum
          / 6 ^ remaining roll face
      ∧ r.avg_score
          = ((poolFor v picked roll face).map fun pr => pr.1.avg_score * (pr.2 : ℚ)).sum
            / ((poolFor v picked roll face).map fun pr => (pr.2 : ℚ)).sum
      ∧ (r.min_score ∈ (poolFor v picked roll face).map fun pr => pr.1.min_score)
      ∧ (∀ x ∈ (poolFor v picked roll face).map fun pr => pr.1.min_score,
          r.min_score ≤ x)
      ∧ (r.max_score ∈ (poolFor v picked roll face).map fun pr => pr.1.max_score)
      ∧ (∀ x ∈ (poolFor v picked roll face).map fun pr => pr.1.max_score,
          x ≤ r.max_score) := by
  rcases hpl : poolFor v picked roll face with _ | ⟨p, ps⟩
  · exact absurd hpl h4
  · have hbody := simBody_recursive v picked roll face h1 h2 h3
    rw [hpl] at hbody
    refine ⟨_, (mem_simulate_iff v picked roll face _).mpr ⟨h1, hbody⟩,
      rfl, rfl, ?_, ?_, ?_, ?_⟩
    · show ps.foldl (fun acc pr => min acc pr.1.min_score) p.1.min_score
        ∈ (p :: ps).map fun pr => pr.1.min_score
      rw [List.map_cons, ← List.foldl_map (fun pr : SimResult × ℕ => pr.1.min_score) min ps
        p.1.min_score]
      exact foldl_min_mem _ _
    · intro x hx
      show ps.foldl (fun acc pr => min acc pr.1.min_score) p.1.min_score ≤ x
      rw [← List.foldl_map (fun pr : SimResult × ℕ => pr.1.min_score) min ps p.1.min_score]
      refine foldl_min_le _ _ x ?_
      rw [List.map_cons] at hx
      exact hx
    · show ps.foldl (fun acc pr => max acc pr.1.max_score) p.1.max_score
        ∈ (p :: ps).map fun pr => pr.1.max_score
      rw [List.map_cons, ← List.foldl_map (fun pr : SimResult × ℕ => pr.1.max_score) max ps
        p.1.max_score]
      exact foldl_max_mem _ _
    · intro x hx
      show x ≤ ps.foldl (fun acc pr => max acc pr.1.max_score) p.1.max_score
      rw [← List.foldl_map (fun pr : SimResult × ℕ => pr.1.max_score) max ps p.1.max_score]
      refine foldl_max_ge _ _ x ?_
      rw [List.map_cons] at hx
      exact hx

/-- Witness for C2: empty `picked`, roll `[worm, 1]`, a validity rule that never
accepts: picking the worm leaves one die, the pool is non-empty, and the entry
has probability `5/6` and average score `8`. -/
theorem simulate_recursive_entry_witness :
    ∃ r : SimResult,
      ((0 : ℕ), r) ∈ simulate (fun _ => false) (DiceSet.mk []) (DiceSet.mk [0, 1])
      ∧ r.prob = 5 / 6 ∧ r.avg_score = 8 := by
  obtain ⟨r, hmem, hprob, havg, -, -, -, -⟩ :=
    simulate_recursive_entry (fun _ => false) (DiceSet.mk []) (DiceSet.mk [0, 1]) 0
      (by decide) (by decide) (by decide) (by decide)
  have hpool : poolFor (fun _ => false) (DiceSet.mk []) (DiceSet.mk [0, 1]) 0
      = [(⟨1, 6, 6, 6⟩, 1), (⟨1, 7, 7, 7⟩, 1), (⟨1, 8, 8, 8⟩, 1),
         (⟨1, 9, 9, 9⟩, 1), (⟨1, 10, 10, 10⟩, 1)] := by decide
  have hrem : remaining (DiceSet.mk [0, 1]) 0 = 1 := by decide
  refine ⟨r, hmem, ?_, ?_⟩
  · rw [hprob, hpool, hrem]
    norm_num
  · rw [havg, hpool]
    norm_num

/-- C3: for a legal pick leaving `m > 0` dice, an empty pool (every continuation
certain to be invalid) means the face gets no entry in the result mapping at
all, whereas a terminal (`m == 0`) pick always gets one. -/
theorem simulate_losing_pick_omitted (v : ℕ → Bool) (picked roll : DiceSet)
    (face : ℕ) (h1 : face ∈ roll.faces) (h2 : face ∉ picked.faces) :
    (remaining roll face ≠ 0 → poolFor v picked roll face = [] →
      ∀ r : SimResult, (face, r) ∉ simulate v picked roll)
    ∧ (remaining roll face = 0 →
      ∃ r : SimResult, (face, r) ∈ simulate v picked roll) := by
  constructor
  · intro h3 h4 r hr
    have h := ((mem_simulate_iff v picked roll face r).mp hr).2
    rw [simBody_recursive v picked roll face h1 h2 h3, h4] at h
    exact Option.noConfusion h
  · intro h3
    exact ⟨_, (mem_simulate_iff v picked roll face _).mpr
      ⟨h1, simBody_terminal v picked roll face h1 h2 h3⟩⟩

/-- Witness for C3: with faces `1`-`5` already retired, picking the worm from
roll `[worm, 1]` leaves one die but every continuation is an illegal pick, so
the pool is empty and the worm entry is omitted. -/
theorem simulate_losing_pick_omitted_witness :
    ((0 : ℕ), (⟨0, 0, 0, 0⟩ : SimResult))
      ∉ simulate (fun _ => false) (DiceSet.mk [1, 2, 3, 4, 5]) (DiceSet.mk [0, 1]) :=
  (simulate_losing_pick_omitted (fun _ => false) (DiceSet.mk [1, 2, 3, 4, 5])
    (DiceSet.mk [0, 1]) 0 (by decide) (by decide)).1 (by decide) (by decide)
    (⟨0, 0, 0, 0⟩ : SimResult)

/-- C4: `all_rolls n` over the six faces yields `C(n+5, 5)` rolls of `n` dice
each over the six faces, pairwise distinct as multisets, and covering every
multiset of `n` dice over the six faces. -/
theorem all_rolls_enumerates_multisets (n : ℕ) :
    (all_rolls n FACES).length = (n + 5).choose 5
    ∧ (∀ R ∈ all_rolls n FACES, R.faces.length = n ∧ ∀ x ∈ R.faces, x ∈ FACES)
    ∧ ((all_rolls n FACES).map fun R => (R.faces : Multiset ℕ)).Nodup
    ∧ ∀ M : Multiset ℕ, Multiset.card M = n → (∀ x ∈ M, x ∈ FACES) →
        M ∈ (all_rolls n FACES).map fun R => (R.faces : Multiset ℕ) := by
  refine ⟨?_, ?_, ?_, ?_⟩
  · rw [length_all_rolls]
    have h6 : FACES.length = 6 := rfl
    rw [h6, Nat.multichoose_eq]
    have ha : 6 + n - 1 = n + 5 := by omega
    rw [ha]
    have hb := Nat.choose_symm (show n ≤ n + 5 by omega)
    have hc : n + 5 - n = 5 := by omega
    rw [hc] at hb
    exact hb.symm
  · exact fun R hR => ⟨length_of_mem_all_rolls _ _ _ hR,
      mem_faces_of_mem_all_rolls _ _ _ hR⟩
  · exact nodup_all_rolls_multisets n FACES (by decide)
  · exact mem_all_rolls_multisets n FACES

/-- Witness for C4: the singleton worm multiset is among the rolls of one die. -/
theorem all_rolls_enumerates_multisets_witness :
    ({0} : Multiset ℕ) ∈ (all_rolls 1 FACES).map fun R => (R.faces : Multiset ℕ) :=
  (all_rolls_enumerates_multisets 1).2.2.2 {0} (by decide) (by decide)

/-- C5: the combination weights of the distinct rolls of `n` dice add up to
`6 ^ n`, the number of equally likely labeled outcomes. -/
theorem sum_combinations_eq_six_pow (n : ℕ) :
    ((all_rolls n FACES).map DiceSet.combinations).sum = 6 ^ n := by
  have h := sum_combinations_all_rolls FACES (by decide) n
  have h6 : FACES.length = 6 := rfl
  rw [h6] at h
  exact h

/-- C6: `combinations()` computes the multinomial coefficient
`n! / Π count_f!`; it is positive on a non-empty set; and the iterative product
gives the same value for any visiting order of the distinct-face counts. -/
theorem combinations_is_multinomial (d : DiceSet) :
    d.combinations
        = d.faces.length.factorial / ((countsList d.faces).map Nat.factorial).prod
    ∧ (d.faces ≠ [] → 0 < d.combinations)
    ∧ ∀ cs : List ℕ, cs.Perm (countsList d.faces) →
        combsAux d.faces.length cs = d.combinations := by
  have hprodpos : 0 < ((countsList d.faces).map Nat.factorial).prod := by
    apply List.prod_pos
    intro x hx
    rcases List.mem_map.mp hx with ⟨c, _, rfl⟩
    exact c.factorial_pos
  refine ⟨?_, ?_, ?_⟩
  · exact (Nat.div_eq_of_eq_mul_left hprodpos (combinations_mul_factorial d).symm).symm
  · intro _
    exact combinations_pos d
  · intro cs hperm
    have hsum : cs.sum = d.faces.length := by
      rw [hperm.sum_eq, countsList_sum]
    have ha := combsAux_mul_factorial cs d.faces.length (le_of_eq hsum)
    rw [hsum, Nat.sub_self, Nat.factorial_zero, mul_one,
      (hperm.map Nat.factorial).prod_eq] at ha
    exact Nat.eq_of_mul_eq_mul_right hprodpos
      (ha.trans (combinations_mul_factorial d).symm)

/-- Witness for C6: the set `[1, 1, 2]` has three combinations, positive, and
the reversed visiting order `[1, 2]` of the counts `[2, 1]` gives the same
value. -/
theorem combinations_is_multinomial_witness :
    0 < (DiceSet.mk [1, 1, 2]).combinations
      ∧ combsAux 3 [1, 2] = (DiceSet.mk [1, 1, 2]).combinations :=
  ⟨(combinations_is_multinomial (DiceSet.mk [1, 1, 2])).2.1 (by decide),
   (combinations_is_multinomial (DiceSet.mk [1, 1, 2])).2.2 [1, 2] (by decide)⟩

/-- C7: `pick` fails with the usage-contract `ValueError` when the roll is not
set, and with `InvalidPickError` when the face is missing from the roll or was
already retired into `picked` (even if it reappears in the roll); in every
failure case the state `self` is returned exactly as received. -/
theorem pick_failure_cases (s : Round) (face : ℕ) :
    (s.roll = none → s.pick face = (.error .rollNotSet, s))
    ∧ (∀ r : DiceSet, s.roll = some r → face ∉ r.faces →
        s.pick face = (.error .invalidPick, s))
    ∧ (∀ r : DiceSet, s.roll = some r → face ∈ s.picked.faces →
        s.pick face = (.error .invalidPick, s)) := by
  refine ⟨?_, ?_, ?_⟩
  · intro h
    unfold Round.pick
    rw [h]
  · intro r h hface
    unfold Round.pick
    rw [h]
    simp [hface]
  · intro r h hface
    unfold Round.pick
    rw [h]
    by_cases h2 : face ∈ r.faces
    · simp [h2, hface]
    · simp [h2]

/-- Witness for C7: with `1` already picked and reappearing in the roll
`[1, 2]`, picking `1` raises `InvalidPickError` and leaves the state intact. -/
theorem pick_failure_cases_witness :
    Round.pick ⟨DiceSet.mk [1], some (DiceSet.mk [1, 2])⟩ 1
      = (.error .invalidPick, ⟨DiceSet.mk [1], some (DiceSet.mk [1, 2])⟩) :=
  (pick_failure_cases ⟨DiceSet.mk [1], some (DiceSet.mk [1, 2])⟩ 1).2.2
    (DiceSet.mk [1, 2]) rfl (by decide)

/-- C8: a legal `pick` returns a new round whose picked multiset is the old one
plus all `count(face)` dice showing `face` and whose roll is unset, while `self`
is returned unchanged. -/
theorem pick_success (s : Round) (r : DiceSet) (face : ℕ)
    (h1 : s.roll = some r) (h2 : face ∈ r.faces) (h3 : face ∉ s.picked.faces) :
    s.pick face
      = (.ok ⟨s.picked.add (List.replicate (r.faces.count face) face), none⟩, s)
    ∧ ((s.picked.add (List.replicate (r.faces.count face) face)).faces : Multiset ℕ)
        = (s.picked.faces : Multiset ℕ)
          + Multiset.replicate (r.faces.count face) face := by
  constructor
  · unfold Round.pick
    rw [h1]
    simp [h2, h3]
  · have hp := s.picked.add_perm (List.replicate (r.faces.count face) face)
    rw [Multiset.coe_eq_coe.mpr hp]
    rw [← Multiset.coe_add, Multiset.coe_replicate]

/-- Witness for C8: picking `2` from roll `[2, 2]` with empty `picked` claims
both dice and clears the roll. -/
theorem pick_success_witness :
    Round.pick ⟨DiceSet.mk [], some (DiceSet.mk [2, 2])⟩ 2
      = (.ok ⟨DiceSet.mk [2, 2], none⟩, ⟨DiceSet.mk [], some (DiceSet.mk [2, 2])⟩) := by
  exact (pick_success ⟨DiceSet.mk [], some (DiceSet.mk [2, 2])⟩
    (DiceSet.mk [2, 2]) 2 rfl (by decide) (by decide)).1

/-- C9 counterexample: the `DiceSet` values constructed from the permuted lists
`[1, 1, 2]` and `[2, 1, 1]` are not equal — the constructor stores the face
list as given, and the class defines no `__eq__`, so Python's `==` (default
object identity) also distinguishes the two freshly constructed objects. -/
theorem diceSet_permuted_not_equal :
    DiceSet.mk [1, 1, 2] ≠ DiceSet.mk [2, 1, 1] := by decide

/-- C9 amended: dice sets constructed from face lists that are permutations of
each other have the same `compact` count mapping (the `Counter` view); this is
the sense in which the order the dice were added is irrelevant. -/
theorem compact_eq_of_perm (l1 l2 : List ℕ) (h : l1.Perm l2) :
    ∀ face : ℕ, (DiceSet.mk l1).compact face = (DiceSet.mk l2).compact face := by
  intro face
  unfold DiceSet.compact
  exact h.count_eq face

/-- Witness for C9 amended: the spec's instance `[1, 1, 2]` vs `[2, 1, 1]`. -/
theorem compact_eq_of_perm_witness :
    (DiceSet.mk [1, 1, 2]).compact 1 = (DiceSet.mk [2, 1, 1]).compact 1 :=
  compact_eq_of_perm [1, 1, 2] [2, 1, 1] (by decide) 1

/-- C10: in the terminal case the validity test is the disjunction
`is_complete() or valid_score(score)`: with a worm among the resulting picked
dice the probability is `1` whatever the game's score rule `v` says; without a
worm it is `1` or `0` according to `v` applied to the resulting score alone. -/
theorem simulate_terminal_validity (v : ℕ → Bool) (picked roll : DiceSet)
    (face : ℕ) (h1 : face ∈ roll.faces) (h2 : face ∉ picked.faces)
    (h3 : remaining roll face = 0) :
    ∃ r : SimResult, (face, r) ∈ simulate v picked roll
      ∧ (WORM ∈ (pickedAfter picked roll face).faces → r.prob = 1)
      ∧ (WORM ∉ (pickedAfter picked roll face).faces →
          r.prob = if v (pickedAfter picked roll face).score then 1 else 0) := by
  refine ⟨terminalResult v (pickedAfter picked roll face),
    (mem_simulate_iff v picked roll face _).mpr
      ⟨h1, simBody_terminal v picked roll face h1 h2 h3⟩, ?_, ?_⟩
  · intro hw
    simp [terminalResult, DiceSet.is_complete, hw]
  · intro hw
    simp [terminalResult, DiceSet.is_complete, hw]

/-- Witness for C10: picking the lone worm gives probability `1` even though the
score rule rejects everything. -/
theorem simulate_terminal_validity_witness :
    ∃ r : SimResult,
      ((0 : ℕ), r) ∈ simulate (fun _ => false) (DiceSet.mk []) (DiceSet.mk [0])
      ∧ r.prob = 1 := by
  obtain ⟨r, hmem, hworm, -⟩ := simulate_terminal_validity (fun _ => false)
    (DiceSet.mk []) (DiceSet.mk [0]) 0 (by decide) (by decide) (by decide)
  exact ⟨r, hmem, hworm (by decide)⟩

end Pickomino
